import Mathlib

set_option maxRecDepth 8000

/-! Verification development for the food-pantry knapsack utilities of
`maxcalorie.hh`: the catalog data model, `sum_food_vector`,
`filter_food_vector`, the exhaustive subset search
`exhaustive_max_calories` and the dynamic-programming solver
`dynamic_max_calories`.

Numeric model: item weights are natural numbers, calorie values are
integers, and capacities are integers (exhaustive solver) or natural
numbers (DP solver).  This is the integral weight/capacity regime in
which the specification states its properties; exact integer arithmetic
stands in for the C++ `double` arithmetic, which is exact on these
values.  The exhaustive mask counter is modelled as an unbounded natural
number; the separate definitions `cppIntMax` / `bitSizeFitsCppInt`
record the width of the C++ `int` that actually holds `pow(2, n)` in the
source, so that the overflow behaviour can be stated precisely. -/

/-- One food item available for purchase (class `FoodItem` of the source):
a human-readable description, a weight in ounces and a calorie value.
The constructor asserts a non-empty description and a positive weight. -/
structure FoodItem where
  description : String
  weight : Nat
  calories : Int
deriving DecidableEq, Repr, Inhabited

/-- Reading `foods[i]` from a `FoodVector`.  The source only ever indexes in
bounds; the default item is irrelevant to every statement below. -/
def nthFood (foods : List FoodItem) (i : Nat) : FoodItem :=
  foods.getD i ⟨"", 1, 0⟩

/-- Total weight of a `FoodVector` (the first component accumulated by
`sum_food_vector`). -/
def listWeight (l : List FoodItem) : Nat :=
  (l.map FoodItem.weight).sum

/-- Total calories of a `FoodVector` (the second component accumulated by
`sum_food_vector`). -/
def listCal (l : List FoodItem) : Int :=
  (l.map FoodItem.calories).sum

/-- The aggregation helper `sum_food_vector`: one pass over the vector
accumulating total weight and total calories (returned here as a pair
instead of through out-parameters). -/
def sum_food_vector (foods : List FoodItem) : Nat × Int :=
  foods.foldl (fun acc f => (acc.1 + f.weight, acc.2 + f.calories)) (0, 0)

/-- Loop body of `filter_food_vector`: scan `source`, keep an item iff its
calories lie in `[min_calories, max_calories]`, and `break` out of the loop
as soon as a matching item is seen while the accumulator is already full. -/
def filterGo (min_calories max_calories total_size : Int) :
    List FoodItem → List FoodItem → List FoodItem
  | [], acc => acc
  | f :: fs, acc =>
    if min_calories ≤ f.calories ∧ f.calories ≤ max_calories then
      if (acc.length : Int) < total_size then
        filterGo min_calories max_calories total_size fs (acc ++ [f])
      else acc
    else filterGo min_calories max_calories total_size fs acc

/-- The source's `filter_food_vector`: rejects `total_size <= 0` (returning
null, modelled as `none`), otherwise scans the source in order collecting
matching items up to `total_size` of them. -/
def filter_food_vector (source : List FoodItem)
    (min_calories max_calories total_size : Int) : Option (List FoodItem) :=
  if total_size ≤ 0 then none
  else some (filterGo min_calories max_calories total_size source [])

/-- The items of `foods` whose index `j < k` has bit `j` set in `mask`, in
index order: the candidate vector built by the inner loop of
`exhaustive_max_calories` after scanning positions `0..k-1` of `mask`. -/
def maskItemsUpTo (foods : List FoodItem) (mask k : Nat) : List FoodItem :=
  (List.range k).filterMap fun j =>
    if mask.testBit j then some (nthFood foods j) else none

/-- The subset of `foods` selected by the inclusion bitmask `mask`. -/
def maskItems (foods : List FoodItem) (mask : Nat) : List FoodItem :=
  maskItemsUpTo foods mask foods.length

/-- Total weight of the subset selected by `mask`. -/
def maskWeight (foods : List FoodItem) (mask : Nat) : Nat :=
  listWeight (maskItems foods mask)

/-- Total calories of the subset selected by `mask`. -/
def maskCal (foods : List FoodItem) (mask : Nat) : Int :=
  listCal (maskItems foods mask)

/-- Running best of the exhaustive search: `BestFoodVector` together with
`bestTotalCalries` (sic, as in the source). -/
structure ExhState where
  best : List FoodItem
  bestCal : Int
deriving DecidableEq, Repr

/-- Full loop state of the exhaustive search's inner loop: the candidate
vector with its running weight and calorie sums, plus the best-so-far. -/
structure InnerState where
  cand : List FoodItem
  candW : Nat
  candCal : Int
  st : ExhState
deriving DecidableEq, Repr

/-- The feasibility/record check the source performs inside the inner loop:
if the candidate weight fits and its calories strictly beat the best so far,
record the candidate as the new best. -/
def checkBest (total_weight : Int) (s : InnerState) : InnerState :=
  if (s.candW : Int) ≤ total_weight then
    if s.candCal > s.st.bestCal then
      { s with st := { best := s.cand, bestCal := s.candCal } }
    else s
  else s

/-- One iteration of the inner `j` loop of `exhaustive_max_calories`: if bit
`j` of `bit` is set, push `foods[j]` onto the candidate and update the
running sums; then (inside the loop, as in the source) run the
feasibility/record check on the candidate. -/
def stepJ (foods : List FoodItem) (total_weight : Int) (bit : Nat)
    (s : InnerState) (j : Nat) : InnerState :=
  checkBest total_weight
    (if bit.testBit j then
      { cand := s.cand ++ [nthFood foods j],
        candW := s.candW + (nthFood foods j).weight,
        candCal := s.candCal + (nthFood foods j).calories,
        st := s.st }
    else s)

/-- One iteration of the outer `bit` loop of `exhaustive_max_calories`:
clear the candidate and its sums, then run the inner loop over all item
positions. -/
def runMask (foods : List FoodItem) (total_weight : Int)
    (st : ExhState) (bit : Nat) : ExhState :=
  ((List.range foods.length).foldl (stepJ foods total_weight bit)
    { cand := [], candW := 0, candCal := 0, st := st }).st

/-- The source's `exhaustive_max_calories`: assert `n < 64` (modelled as
`none` on violation), then enumerate every mask in `[0, 2^n)` and return the
final best vector.  The mask counter is modelled as an unbounded natural
number; `bitSizeFitsCppInt` below records the width of the C++ `int` that
holds `pow(2, n)` in the source. -/
def exhaustive_max_calories (foods : List FoodItem) (total_weight : Int) :
    Option (List FoodItem) :=
  if foods.length < 64 then
    some (((List.range (2 ^ foods.length)).foldl (runMask foods total_weight)
      { best := [], bestCal := 0 }).best)
  else none

/-- Net effect of one outer iteration of the exhaustive search, as proved by
`runMask_eq_updateBest`: if the subset selected by `m` fits the capacity and
strictly beats the best so far, it becomes the new best. -/
def updateBest (foods : List FoodItem) (total_weight : Int)
    (st : ExhState) (m : Nat) : ExhState :=
  if (maskWeight foods m : Int) ≤ total_weight then
    if maskCal foods m > st.bestCal then
      { best := maskItems foods m, bestCal := maskCal foods m }
    else st
  else st

/-- Maximum of a list of integers and `0` (the exhaustive search's initial
best value). -/
def listMax (l : List Int) : Int := l.foldl max 0

/-- Value of the best subset found by the exhaustive enumeration: the
maximum, over all masks `m < 2^n` whose selected subset fits the capacity,
of the subset's total calories, at least `0`. -/
def bestValue (foods : List FoodItem) (total_weight : Int) : Int :=
  listMax (((List.range (2 ^ foods.length)).filter
    fun m => (maskWeight foods m : Int) ≤ total_weight).map (maskCal foods))

/-- Modelled from the spec's words: "the maximum value achievable by the
first `i` items within capacity `j`" — the maximum total calories over all
subsets of the first `i` items whose total weight is at most `j` (the empty
subset, of value `0`, always qualifies). -/
def maxValueUpTo (foods : List FoodItem) (i j : Nat) : Int :=
  listMax (((List.range (2 ^ i)).filter
    fun m => maskWeight foods m ≤ j).map (maskCal foods))

/-- Entry `T[i][j]` of the DP table built by `dynamic_max_calories`: row `0`
is all zeros, and row `i+1` at column `j` takes
`max(foods[i].calories + T[i][j - w(i)], T[i][j])` when `foods[i]` fits in
`j`, else copies `T[i][j]`. -/
def dpTable (foods : List FoodItem) : Nat → Nat → Int
  | 0, _ => 0
  | i + 1, j =>
    if (nthFood foods i).weight ≤ j then
      max ((nthFood foods i).calories + dpTable foods i (j - (nthFood foods i).weight))
        (dpTable foods i j)
    else dpTable foods i j

/-- Indices pushed by the traceback loop of `dynamic_max_calories`: walk `i`
from `N` down to `1`; whenever `T[i][step] != T[i-1][step]`, item `i-1` was
taken, so record it and move `step` left by its weight. -/
def tracebackIdx (foods : List FoodItem) : Nat → Nat → List Nat
  | 0, _ => []
  | i + 1, step =>
    if dpTable foods (i + 1) step ≠ dpTable foods i step then
      i :: tracebackIdx foods i (step - (nthFood foods i).weight)
    else tracebackIdx foods i step

/-- The source's `dynamic_max_calories`: build the DP table over columns
`0..total_weight`, then trace back from `T[N][total_weight]`, returning the
recorded items (highest catalog index first, as pushed by the loop). -/
def dynamic_max_calories (foods : List FoodItem) (total_weight : Nat) :
    List FoodItem :=
  (tracebackIdx foods foods.length total_weight).map (nthFood foods)

/-- Largest value of the C++ `int` (32-bit two's complement) that holds
`bitSize` in `exhaustive_max_calories`. -/
def cppIntMax : Int := 2 ^ 31 - 1

/-- Whether `pow(2, n)`, the number of masks the exhaustive loop must visit,
is representable in the C++ `int` variable `bitSize` that receives it. -/
def bitSizeFitsCppInt (n : Nat) : Prop :=
  ((2 ^ n : Nat) : Int) ≤ cppIntMax

instance (n : Nat) : Decidable (bitSizeFitsCppInt n) :=
  inferInstanceAs (Decidable (_ ≤ _))

/-! Basic lemmas about sums, `listMax`, and mask-selected subsets. -/

theorem listWeight_nil : listWeight [] = 0 := rfl

theorem listCal_nil : listCal [] = 0 := rfl

theorem listWeight_append (l₁ l₂ : List FoodItem) :
    listWeight (l₁ ++ l₂) = listWeight l₁ + listWeight l₂ := by
  simp [listWeight]

theorem listCal_append (l₁ l₂ : List FoodItem) :
    listCal (l₁ ++ l₂) = listCal l₁ + listCal l₂ := by
  simp [listCal]

theorem sum_food_vector_go (l : List FoodItem) :
    ∀ p : Nat × Int,
      l.foldl (fun acc f => (acc.1 + f.weight, acc.2 + f.calories)) p =
        (p.1 + listWeight l, p.2 + listCal l) := by
  induction l with
  | nil => intro p; simp [listWeight, listCal]
  | cons f fs ih =>
    intro p
    simp only [List.foldl_cons, ih]
    simp [listWeight, listCal, add_assoc]

/-- The pair computed by `sum_food_vector` is the (total weight, total
calories) of the vector. -/
theorem sum_food_vector_eq (l : List FoodItem) :
    sum_food_vector l = (listWeight l, listCal l) := by
  simpa using sum_food_vector_go l (0, 0)

theorem le_foldl_max (l : List Int) (a : Int) : a ≤ l.foldl max a := by
  induction l generalizing a with
  | nil => simp
  | cons x xs ih => exact le_trans (le_max_left a x) (ih (max a x))

theorem le_foldl_max_of_mem {l : List Int} {x : Int} (hx : x ∈ l) (a : Int) :
    x ≤ l.foldl max a := by
  induction l generalizing a with
  | nil => cases hx
  | cons y ys ih =>
    rcases List.mem_cons.mp hx with rfl | h
    · exact le_trans (le_max_right a x) (le_foldl_max ys (max a x))
    · exact ih h (max a y)

theorem foldl_max_le {l : List Int} {b : Int} (h : ∀ x ∈ l, x ≤ b) :
    ∀ a, a ≤ b → l.foldl max a ≤ b := by
  induction l with
  | nil => intro a ha; simpa using ha
  | cons x xs ih =>
    intro a ha
    exact ih (fun y hy => h y (List.mem_cons_of_mem _ hy)) (max a x)
      (max_le ha (h x (List.mem_cons_self _ _)))

theorem foldl_max_eq_or_mem (l : List Int) (a : Int) :
    l.foldl max a = a ∨ l.foldl max a ∈ l := by
  induction l generalizing a with
  | nil => left; rfl
  | cons x xs ih =>
    rcases ih (max a x) with h | h
    · rw [List.foldl_cons, h]
      rcases le_total a x with hax | hxa
      · right; rw [max_eq_right hax]; exact List.mem_cons_self _ _
      · left; exact max_eq_left hxa
    · right; exact List.mem_cons_of_mem _ h

theorem listMax_nonneg (l : List Int) : 0 ≤ listMax l := le_foldl_max l 0

theorem le_listMax {l : List Int} {x : Int} (hx : x ∈ l) : x ≤ listMax l :=
  le_foldl_max_of_mem hx 0

theorem listMax_le {l : List Int} {b : Int} (hb : 0 ≤ b) (h : ∀ x ∈ l, x ≤ b) :
    listMax l ≤ b :=
  foldl_max_le h 0 hb

theorem listMax_eq_zero_or_mem (l : List Int) : listMax l = 0 ∨ listMax l ∈ l :=
  foldl_max_eq_or_mem l 0

theorem listMax_le_listMax {l₁ l₂ : List Int} (h : ∀ x ∈ l₁, x ∈ l₂) :
    listMax l₁ ≤ listMax l₂ :=
  listMax_le (listMax_nonneg l₂) (fun x hx => le_listMax (h x hx))

theorem maskItemsUpTo_zero (foods : List FoodItem) (m : Nat) :
    maskItemsUpTo foods m 0 = [] := rfl

theorem maskItemsUpTo_succ (foods : List FoodItem) (m k : Nat) :
    maskItemsUpTo foods m (k + 1) =
      maskItemsUpTo foods m k ++
        (if m.testBit k then [nthFood foods k] else []) := by
  by_cases h : m.testBit k <;>
    simp [maskItemsUpTo, List.range_succ, h]

theorem maskItemsUpTo_congr (foods : List FoodItem) {m₁ m₂ k : Nat}
    (h : ∀ j < k, m₁.testBit j = m₂.testBit j) :
    maskItemsUpTo foods m₁ k = maskItemsUpTo foods m₂ k := by
  unfold maskItemsUpTo
  refine List.filterMap_congr (fun j hj => ?_)
  rw [h j (List.mem_range.mp hj)]

theorem maskItemsUpTo_stable (foods : List FoodItem) {m k : Nat}
    (hm : m < 2 ^ k) :
    ∀ {k'}, k ≤ k' → maskItemsUpTo foods m k' = maskItemsUpTo foods m k := by
  intro k' hk
  induction k' , hk using Nat.le_induction with
  | base => rfl
  | succ k' hk ih =>
    rw [maskItemsUpTo_succ, ih]
    have hbit : m.testBit k' = false :=
      Nat.testBit_lt_two_pow
        (lt_of_lt_of_le hm (Nat.pow_le_pow_right (by decide) hk))
    simp [hbit]

theorem maskItems_eq_upTo (foods : List FoodItem) {m k : Nat}
    (hm : m < 2 ^ k) (hk : k ≤ foods.length) :
    maskItems foods m = maskItemsUpTo foods m k :=
  maskItemsUpTo_stable foods hm hk

theorem maskItemsUpTo_two_pow_add (foods : List FoodItem) {m i : Nat}
    (hm : m < 2 ^ i) :
    maskItemsUpTo foods (2 ^ i + m) (i + 1) =
      maskItemsUpTo foods m i ++ [nthFood foods i] := by
  rw [maskItemsUpTo_succ]
  have hbit : (2 ^ i + m).testBit i = true := by
    rw [Nat.testBit_two_pow_add_eq, Nat.testBit_lt_two_pow hm]
    rfl
  rw [hbit]
  congr 1
  exact maskItemsUpTo_congr foods
    (fun j hj => Nat.testBit_two_pow_add_gt hj m)

theorem maskItems_two_pow_add (foods : List FoodItem) {m i : Nat}
    (hm : m < 2 ^ i) (hi : i < foods.length) :
    maskItems foods (2 ^ i + m) = maskItemsUpTo foods m i ++ [nthFood foods i] := by
  have hlt : 2 ^ i + m < 2 ^ (i + 1) := by
    have : (2 : Nat) ^ (i + 1) = 2 ^ i + 2 ^ i := by ring
    omega
  rw [maskItems_eq_upTo foods hlt hi, maskItemsUpTo_two_pow_add foods hm]

theorem maskWeight_two_pow_add (foods : List FoodItem) {m i : Nat}
    (hm : m < 2 ^ i) (hi : i < foods.length) :
    maskWeight foods (2 ^ i + m) = maskWeight foods m + (nthFood foods i).weight := by
  rw [maskWeight, maskItems_two_pow_add foods hm hi, listWeight_append, maskWeight,
    maskItems_eq_upTo foods hm (le_of_lt hi)]
  simp [listWeight]

theorem maskCal_two_pow_add (foods : List FoodItem) {m i : Nat}
    (hm : m < 2 ^ i) (hi : i < foods.length) :
    maskCal foods (2 ^ i + m) = maskCal foods m + (nthFood foods i).calories := by
  rw [maskCal, maskItems_two_pow_add foods hm hi, listCal_append, maskCal,
    maskItems_eq_upTo foods hm (le_of_lt hi)]
  simp [listCal]

theorem maskItems_zero (foods : List FoodItem) : maskItems foods 0 = [] := by
  rw [maskItems_eq_upTo foods (by decide : (0:Nat) < 2 ^ 0) (Nat.zero_le _)]
  rfl

theorem maskWeight_zero (foods : List FoodItem) : maskWeight foods 0 = 0 := by
  rw [maskWeight, maskItems_zero]; rfl

theorem maskCal_zero (foods : List FoodItem) : maskCal foods 0 = 0 := by
  rw [maskCal, maskItems_zero]; rfl

/-! Equivalence of the exhaustive search's inner loop with a per-mask
best-update, and the resulting characterisation of its final state. -/

theorem checkBest_eval (total_weight : Int) (c : List FoodItem) (w : Nat)
    (v : Int) (S : ExhState) :
    checkBest total_weight { cand := c, candW := w, candCal := v, st := S } =
      if (w : Int) ≤ total_weight ∧ S.bestCal < v then
        { cand := c, candW := w, candCal := v, st := { best := c, bestCal := v } }
      else { cand := c, candW := w, candCal := v, st := S } := by
  by_cases h1 : (w : Int) ≤ total_weight
  · by_cases h2 : S.bestCal < v
    · simp [checkBest, h1, h2]
    · simp [checkBest, h1, h2]
  · simp [checkBest, h1]

theorem stepJ_eval (foods : List FoodItem) (total_weight : Int) (bit : Nat)
    (S : ExhState) (k : Nat) :
    stepJ foods total_weight bit
        { cand := maskItemsUpTo foods bit k,
          candW := listWeight (maskItemsUpTo foods bit k),
          candCal := listCal (maskItemsUpTo foods bit k),
          st := S } k =
      checkBest total_weight
        { cand := maskItemsUpTo foods bit (k + 1),
          candW := listWeight (maskItemsUpTo foods bit (k + 1)),
          candCal := listCal (maskItemsUpTo foods bit (k + 1)),
          st := S } := by
  by_cases h : bit.testBit k <;>
    simp [stepJ, maskItemsUpTo_succ, h, listWeight_append, listCal_append,
      listWeight, listCal]

theorem innerFold_spec (foods : List FoodItem) (total_weight : Int)
    (st : ExhState) (hst : 0 ≤ st.bestCal) {m : Nat}
    (hprev : ∀ p, p < m → (maskWeight foods p : Int) ≤ total_weight →
      maskCal foods p ≤ st.bestCal) :
    ∀ k, k ≤ foods.length →
      (List.range k).foldl (stepJ foods total_weight m)
          { cand := [], candW := 0, candCal := 0, st := st } =
        { cand := maskItemsUpTo foods m k,
          candW := listWeight (maskItemsUpTo foods m k),
          candCal := listCal (maskItemsUpTo foods m k),
          st :=
            if m < 2 ^ k ∧ (maskWeight foods m : Int) ≤ total_weight ∧
                st.bestCal < maskCal foods m then
              { best := maskItems foods m, bestCal := maskCal foods m }
            else st } := by
  intro k
  induction k with
  | zero =>
    intro _
    have hcond : ¬ (m < 2 ^ 0 ∧ (maskWeight foods m : Int) ≤ total_weight ∧
        st.bestCal < maskCal foods m) := by
      rintro ⟨h1, _, h3⟩
      have hm0 : m = 0 := Nat.lt_one_iff.mp h1
      rw [hm0, maskCal_zero] at h3
      omega
    rw [if_neg hcond]
    rfl
  | succ k ih =>
    intro hk1
    have hkn : k ≤ foods.length := Nat.le_of_succ_le hk1
    rw [List.range_succ, List.foldl_append, List.foldl_cons, List.foldl_nil,
      ih hkn, stepJ_eval, checkBest_eval]
    rcases Nat.lt_or_ge m (2 ^ k) with hmk | hmk
    · -- the full mask was already scanned: the check re-examines it
      have hm1 : m < 2 ^ (k + 1) :=
        lt_of_lt_of_le hmk (Nat.pow_le_pow_right (by decide) (Nat.le_succ k))
      have e1 : maskItemsUpTo foods m (k + 1) = maskItems foods m :=
        (maskItems_eq_upTo foods hm1 hk1).symm
      rw [e1,
        show listWeight (maskItems foods m) = maskWeight foods m from rfl,
        show listCal (maskItems foods m) = maskCal foods m from rfl]
      by_cases hfeas : (maskWeight foods m : Int) ≤ total_weight
      · by_cases hcal : st.bestCal < maskCal foods m
        · simp [hmk, hm1, hfeas, hcal]
        · simp [hmk, hm1, hfeas, hcal]
      · simp [hfeas]
    · have hmk' : ¬ m < 2 ^ k := not_lt.mpr hmk
      rcases Nat.lt_or_ge m (2 ^ (k + 1)) with hm1 | hm2
      · -- the mask's full candidate is checked here for the first time
        have e1 : maskItemsUpTo foods m (k + 1) = maskItems foods m :=
          (maskItems_eq_upTo foods hm1 hk1).symm
        rw [e1,
          show listWeight (maskItems foods m) = maskWeight foods m from rfl,
          show listCal (maskItems foods m) = maskCal foods m from rfl]
        by_cases hfeas : (maskWeight foods m : Int) ≤ total_weight
        · by_cases hcal : st.bestCal < maskCal foods m
          · simp [hmk', hm1, hfeas, hcal]
          · simp [hmk', hm1, hfeas, hcal]
        · simp [hmk', hfeas]
      · -- the candidate so far is a strictly smaller mask, already beaten
        have hm2' : ¬ m < 2 ^ (k + 1) := not_lt.mpr hm2
        have hpos : 0 < 2 ^ (k + 1) := Nat.pos_pow_of_pos _ (by decide)
        have hp1 : m % 2 ^ (k + 1) < 2 ^ (k + 1) := Nat.mod_lt _ hpos
        have hp2 : m % 2 ^ (k + 1) < m := lt_of_lt_of_le hp1 hm2
        have e1 : maskItemsUpTo foods m (k + 1) =
            maskItems foods (m % 2 ^ (k + 1)) := by
          rw [@maskItemsUpTo_congr foods m (m % 2 ^ (k + 1)) (k + 1)
              (fun j hj => by rw [Nat.testBit_mod_two_pow]; simp [hj]),
            maskItems_eq_upTo foods hp1 hk1]
        rw [e1,
          show listWeight (maskItems foods (m % 2 ^ (k + 1))) =
            maskWeight foods (m % 2 ^ (k + 1)) from rfl,
          show listCal (maskItems foods (m % 2 ^ (k + 1))) =
            maskCal foods (m % 2 ^ (k + 1)) from rfl]
        have hno : ¬ ((maskWeight foods (m % 2 ^ (k + 1)) : Int) ≤ total_weight ∧
            (if m < 2 ^ k ∧ (maskWeight foods m : Int) ≤ total_weight ∧
                st.bestCal < maskCal foods m then
              ({ best := maskItems foods m,
                 bestCal := maskCal foods m } : ExhState)
            else st).bestCal < maskCal foods (m % 2 ^ (k + 1))) := by
          rw [if_neg (fun h => absurd h.1 hmk')]
          exact fun h => absurd h.2 (not_lt.mpr (hprev _ hp2 h.1))
        rw [if_neg hno, if_neg (fun h => absurd h.1 hmk'),
          if_neg (fun h => absurd h.1 hm2')]

theorem runMask_eq_updateBest (foods : List FoodItem) (total_weight : Int)
    (st : ExhState) (hst : 0 ≤ st.bestCal) {m : Nat}
    (hm : m < 2 ^ foods.length)
    (hprev : ∀ p, p < m → (maskWeight foods p : Int) ≤ total_weight →
      maskCal foods p ≤ st.bestCal) :
    runMask foods total_weight st m = updateBest foods total_weight st m := by
  unfold runMask
  rw [innerFold_spec foods total_weight st hst hprev foods.length le_rfl]
  by_cases hfeas : (maskWeight foods m : Int) ≤ total_weight
  · by_cases hcal : st.bestCal < maskCal foods m
    · simp [updateBest, hm, hfeas, hcal]
    · simp [updateBest, hm, hfeas, hcal]
  · simp [updateBest, hm, hfeas]

/-- State of the exhaustive search after processing masks `0..M-1`,
expressed with the per-mask net update. -/
def exhFoldBest (foods : List FoodItem) (total_weight : Int) (M : Nat) : ExhState :=
  (List.range M).foldl (updateBest foods total_weight) { best := [], bestCal := 0 }

theorem exhFoldBest_succ (foods : List FoodItem) (total_weight : Int) (M : Nat) :
    exhFoldBest foods total_weight (M + 1) =
      updateBest foods total_weight (exhFoldBest foods total_weight M) M := by
  unfold exhFoldBest
  rw [List.range_succ, List.foldl_append, List.foldl_cons, List.foldl_nil]

theorem listMax_concat (l : List Int) (x : Int) :
    listMax (l ++ [x]) = max (listMax l) x := by
  unfold listMax
  rw [List.foldl_append]
  rfl

theorem updFold_bestCal (foods : List FoodItem) (total_weight : Int) :
    ∀ M, (exhFoldBest foods total_weight M).bestCal =
      listMax (((List.range M).filter
        (fun m => (maskWeight foods m : Int) ≤ total_weight)).map (maskCal foods)) := by
  intro M
  induction M with
  | zero => rfl
  | succ M ih =>
    have hfilter : (List.range (M + 1)).filter
        (fun m => (maskWeight foods m : Int) ≤ total_weight) =
        (List.range M).filter
          (fun m => (maskWeight foods m : Int) ≤ total_weight) ++
          (if (maskWeight foods M : Int) ≤ total_weight then [M] else []) := by
      rw [List.range_succ, List.filter_append]
      congr 1
      by_cases hfeas : (maskWeight foods M : Int) ≤ total_weight <;> simp [hfeas]
    rw [exhFoldBest_succ, hfilter, List.map_append]
    by_cases hfeas : (maskWeight foods M : Int) ≤ total_weight
    · rw [if_pos hfeas,
        show List.map (maskCal foods) [M] = [maskCal foods M] from rfl,
        listMax_concat, ← ih]
      by_cases hcal : (exhFoldBest foods total_weight M).bestCal < maskCal foods M
      · simp [updateBest, hfeas, hcal, max_eq_right (le_of_lt hcal)]
      · simp [updateBest, hfeas, hcal, max_eq_left (not_lt.mp hcal)]
    · rw [if_neg hfeas,
        show List.map (maskCal foods) ([] : List Nat) = [] from rfl,
        List.append_nil, ← ih]
      simp [updateBest, hfeas]

theorem updFold_le_bestCal (foods : List FoodItem) (total_weight : Int)
    (M : Nat) {p : Nat} (hp : p < M)
    (hfeas : (maskWeight foods p : Int) ≤ total_weight) :
    maskCal foods p ≤ (exhFoldBest foods total_weight M).bestCal := by
  rw [updFold_bestCal]
  exact le_listMax (List.mem_map_of_mem _
    (List.mem_filter.mpr ⟨List.mem_range.mpr hp, decide_eq_true hfeas⟩))

theorem updFold_inv (foods : List FoodItem) (total_weight : Int) :
    ∀ M,
      listCal (exhFoldBest foods total_weight M).best =
        (exhFoldBest foods total_weight M).bestCal ∧
      0 ≤ (exhFoldBest foods total_weight M).bestCal ∧
      ((exhFoldBest foods total_weight M).best = [] ∧
        (exhFoldBest foods total_weight M).bestCal = 0 ∨
       (0 < (exhFoldBest foods total_weight M).bestCal ∧
        ∃ m, m < M ∧ (maskWeight foods m : Int) ≤ total_weight ∧
          maskCal foods m = (exhFoldBest foods total_weight M).bestCal ∧
          (exhFoldBest foods total_weight M).best = maskItems foods m ∧
          ∀ p, p < m → (maskWeight foods p : Int) ≤ total_weight →
            maskCal foods p < (exhFoldBest foods total_weight M).bestCal)) := by
  intro M
  induction M with
  | zero => exact ⟨rfl, le_refl 0, Or.inl ⟨rfl, rfl⟩⟩
  | succ M ih =>
    obtain ⟨ih1, ih2, ih3⟩ := ih
    rw [exhFoldBest_succ]
    by_cases hfeas : (maskWeight foods M : Int) ≤ total_weight
    · by_cases hcal : (exhFoldBest foods total_weight M).bestCal < maskCal foods M
      · have hupd : updateBest foods total_weight (exhFoldBest foods total_weight M) M =
            { best := maskItems foods M, bestCal := maskCal foods M } := by
          simp [updateBest, hfeas, hcal]
        rw [hupd]
        refine ⟨rfl, le_of_lt (lt_of_le_of_lt ih2 hcal),
          Or.inr ⟨lt_of_le_of_lt ih2 hcal,
            M, Nat.lt_succ_self M, hfeas, rfl, rfl, ?_⟩⟩
        intro p hp hpfeas
        exact lt_of_le_of_lt (updFold_le_bestCal foods total_weight M hp hpfeas) hcal
      · have hupd : updateBest foods total_weight (exhFoldBest foods total_weight M) M =
            exhFoldBest foods total_weight M := by
          simp [updateBest, hfeas, hcal]
        rw [hupd]
        refine ⟨ih1, ih2, ?_⟩
        rcases ih3 with h | ⟨hpos, m, hm, hrest⟩
        · exact Or.inl h
        · exact Or.inr ⟨hpos, m, Nat.lt_succ_of_lt hm, hrest⟩
    · have hupd : updateBest foods total_weight (exhFoldBest foods total_weight M) M =
          exhFoldBest foods total_weight M := by
        simp [updateBest, hfeas]
      rw [hupd]
      refine ⟨ih1, ih2, ?_⟩
      rcases ih3 with h | ⟨hpos, m, hm, hrest⟩
      · exact Or.inl h
      · exact Or.inr ⟨hpos, m, Nat.lt_succ_of_lt hm, hrest⟩

theorem exhFold_eq (foods : List FoodItem) (total_weight : Int) :
    ∀ M, M ≤ 2 ^ foods.length →
      (List.range M).foldl (runMask foods total_weight) { best := [], bestCal := 0 } =
        exhFoldBest foods total_weight M := by
  intro M
  induction M with
  | zero => intro _; rfl
  | succ M ih =>
    intro hM1
    have hMlt : M < 2 ^ foods.length := lt_of_lt_of_le (Nat.lt_succ_self M) hM1
    rw [List.range_succ, List.foldl_append, List.foldl_cons, List.foldl_nil,
      ih (le_of_lt hMlt), exhFoldBest_succ]
    exact runMask_eq_updateBest foods total_weight _
      (updFold_inv foods total_weight M).2.1 hMlt
      (fun p hp hpfeas => updFold_le_bestCal foods total_weight M hp hpfeas)

theorem exhaustive_eq_fold (foods : List FoodItem) (total_weight : Int)
    (h64 : foods.length < 64) :
    exhaustive_max_calories foods total_weight =
      some ((exhFoldBest foods total_weight (2 ^ foods.length)).best) := by
  unfold exhaustive_max_calories
  rw [if_pos h64, exhFold_eq foods total_weight (2 ^ foods.length) le_rfl]

theorem exhFold_bestCal_eq_bestValue (foods : List FoodItem) (total_weight : Int) :
    (exhFoldBest foods total_weight (2 ^ foods.length)).bestCal =
      bestValue foods total_weight := by
  rw [updFold_bestCal]
  rfl

/-- Characterisation of the exhaustive search on catalogs of fewer than 64
items: it succeeds, the returned subset's total calories equal `bestValue`
(the maximum over all fitting masks, at least `0`), and the result is either
the empty subset (with `bestValue = 0`) or the subset of the numerically
least fitting mask attaining `bestValue`. -/
theorem exhaustive_spec (foods : List FoodItem) (total_weight : Int)
    (h64 : foods.length < 64) :
    ∃ S, exhaustive_max_calories foods total_weight = some S ∧
      listCal S = bestValue foods total_weight ∧
      (S = [] ∧ bestValue foods total_weight = 0 ∨
       (0 < bestValue foods total_weight ∧
        ∃ m, m < 2 ^ foods.length ∧
          (maskWeight foods m : Int) ≤ total_weight ∧
          maskCal foods m = bestValue foods total_weight ∧
          S = maskItems foods m ∧
          ∀ p, p < m → (maskWeight foods p : Int) ≤ total_weight →
            maskCal foods p < bestValue foods total_weight)) := by
  obtain ⟨h1, _, h3⟩ := updFold_inv foods total_weight (2 ^ foods.length)
  rw [exhFold_bestCal_eq_bestValue] at h1 h3
  exact ⟨_, exhaustive_eq_fold foods total_weight h64, h1, h3⟩

/-! The DP table computes the knapsack maximum, and the traceback realises
it as an actual subset. -/

theorem dpTable_nonneg (foods : List FoodItem) : ∀ i j, 0 ≤ dpTable foods i j := by
  intro i
  induction i with
  | zero => intro j; exact le_refl 0
  | succ i ih =>
    intro j
    simp only [dpTable]
    by_cases h : (nthFood foods i).weight ≤ j
    · rw [if_pos h]; exact le_trans (ih j) (le_max_right _ _)
    · rw [if_neg h]; exact ih j

theorem dpTable_le_succ (foods : List FoodItem) (i j : Nat) :
    dpTable foods i j ≤ dpTable foods (i + 1) j := by
  simp only [dpTable]
  by_cases h : (nthFood foods i).weight ≤ j
  · rw [if_pos h]; exact le_max_right _ _
  · rw [if_neg h]

theorem maskCal_le_maxValueUpTo (foods : List FoodItem) {i j m : Nat}
    (hm : m < 2 ^ i) (hw : maskWeight foods m ≤ j) :
    maskCal foods m ≤ maxValueUpTo foods i j := by
  unfold maxValueUpTo
  exact le_listMax (List.mem_map_of_mem _
    (List.mem_filter.mpr ⟨List.mem_range.mpr hm, decide_eq_true hw⟩))

theorem maxValueUpTo_le (foods : List FoodItem) {i j : Nat} {b : Int}
    (hb : 0 ≤ b)
    (h : ∀ m, m < 2 ^ i → maskWeight foods m ≤ j → maskCal foods m ≤ b) :
    maxValueUpTo foods i j ≤ b := by
  unfold maxValueUpTo
  refine listMax_le hb (fun x hx => ?_)
  obtain ⟨m, hm, rfl⟩ := List.mem_map.mp hx
  obtain ⟨hmr, hfe⟩ := List.mem_filter.mp hm
  exact h m (List.mem_range.mp hmr) (of_decide_eq_true hfe)

theorem maxValueUpTo_nonneg (foods : List FoodItem) (i j : Nat) :
    0 ≤ maxValueUpTo foods i j :=
  listMax_nonneg _

theorem maxValueUpTo_mono_i (foods : List FoodItem) (i j : Nat) :
    maxValueUpTo foods i j ≤ maxValueUpTo foods (i + 1) j :=
  maxValueUpTo_le foods (maxValueUpTo_nonneg foods (i + 1) j)
    (fun m hm hw => maskCal_le_maxValueUpTo foods
      (lt_of_lt_of_le hm (Nat.pow_le_pow_right (by decide) (Nat.le_succ i))) hw)

theorem maxValueUpTo_mono_j (foods : List FoodItem) (i : Nat) {j₁ j₂ : Nat}
    (h : j₁ ≤ j₂) : maxValueUpTo foods i j₁ ≤ maxValueUpTo foods i j₂ :=
  maxValueUpTo_le foods (maxValueUpTo_nonneg foods i j₂)
    (fun m hm hw => maskCal_le_maxValueUpTo foods hm (le_trans hw h))

theorem maxValueUpTo_attained (foods : List FoodItem) (i j : Nat) :
    ∃ m, m < 2 ^ i ∧ maskWeight foods m ≤ j ∧
      maskCal foods m = maxValueUpTo foods i j := by
  rcases listMax_eq_zero_or_mem (((List.range (2 ^ i)).filter
      (fun m => maskWeight foods m ≤ j)).map (maskCal foods)) with h0 | hmem
  · refine ⟨0, Nat.two_pow_pos i, ?_, ?_⟩
    · rw [maskWeight_zero]; exact Nat.zero_le j
    · rw [maskCal_zero]; exact h0.symm
  · obtain ⟨m, hmf, hceq⟩ := List.mem_map.mp hmem
    obtain ⟨hmr, hfe⟩ := List.mem_filter.mp hmf
    exact ⟨m, List.mem_range.mp hmr, of_decide_eq_true hfe, hceq⟩

theorem dpTable_eq_maxValueUpTo (foods : List FoodItem) :
    ∀ i, i ≤ foods.length → ∀ j, dpTable foods i j = maxValueUpTo foods i j := by
  intro i
  induction i with
  | zero =>
    intro _ j
    have h : maxValueUpTo foods 0 j = 0 := by
      simp [maxValueUpTo, listMax, maskWeight_zero, maskCal_zero,
        show List.range 1 = [0] from rfl]
    rw [h]
    rfl
  | succ i ih =>
    intro hi1 j
    have hin : i < foods.length := hi1
    have ihj := ih (le_of_lt hin)
    have hsplit : (2 : Nat) ^ (i + 1) = 2 ^ i + 2 ^ i := by ring
    refine le_antisymm ?_ ?_
    · -- every table entry is attained by some fitting mask
      simp only [dpTable]
      by_cases hw : (nthFood foods i).weight ≤ j
      · rw [if_pos hw]
        refine max_le ?_ (by rw [ihj]; exact maxValueUpTo_mono_i foods i j)
        rw [ihj]
        obtain ⟨m', hm', hwm', hcm'⟩ :=
          maxValueUpTo_attained foods i (j - (nthFood foods i).weight)
        have hlt : 2 ^ i + m' < 2 ^ (i + 1) := by omega
        have hwt : maskWeight foods (2 ^ i + m') ≤ j := by
          rw [maskWeight_two_pow_add foods hm' hin]
          omega
        have hct : maskCal foods (2 ^ i + m') =
            maskCal foods m' + (nthFood foods i).calories :=
          maskCal_two_pow_add foods hm' hin
        calc (nthFood foods i).calories +
              maxValueUpTo foods i (j - (nthFood foods i).weight)
            = maskCal foods (2 ^ i + m') := by rw [← hcm', hct, add_comm]
          _ ≤ maxValueUpTo foods (i + 1) j :=
              maskCal_le_maxValueUpTo foods hlt hwt
      · rw [if_neg hw, ihj]
        exact maxValueUpTo_mono_i foods i j
    · -- every fitting mask is dominated by the table entry
      refine maxValueUpTo_le foods (dpTable_nonneg foods (i + 1) j) ?_
      intro m hm hwm
      rcases Nat.lt_or_ge m (2 ^ i) with hmi | hmi
      · have h1 := maskCal_le_maxValueUpTo foods hmi hwm
        rw [← ihj j] at h1
        exact le_trans h1 (dpTable_le_succ foods i j)
      · rw [hsplit] at hm
        have hm' : m - 2 ^ i < 2 ^ i := by omega
        have heqm : 2 ^ i + (m - 2 ^ i) = m := by omega
        have hwadd := maskWeight_two_pow_add foods hm' hin
        rw [heqm] at hwadd
        have hww : (nthFood foods i).weight ≤ j := by omega
        have hwm' : maskWeight foods (m - 2 ^ i) ≤
            j - (nthFood foods i).weight := by omega
        have hcadd := maskCal_two_pow_add foods hm' hin
        rw [heqm] at hcadd
        have h1 : maskCal foods (m - 2 ^ i) ≤
            dpTable foods i (j - (nthFood foods i).weight) := by
          rw [ihj]
          exact maskCal_le_maxValueUpTo foods hm' hwm'
        simp only [dpTable]
        rw [if_pos hww]
        calc maskCal foods m
            = maskCal foods (m - 2 ^ i) + (nthFood foods i).calories := hcadd
          _ ≤ dpTable foods i (j - (nthFood foods i).weight) +
                (nthFood foods i).calories := by
              exact add_le_add_right h1 _
          _ = (nthFood foods i).calories +
                dpTable foods i (j - (nthFood foods i).weight) := by
              rw [add_comm]
          _ ≤ max ((nthFood foods i).calories +
                dpTable foods i (j - (nthFood foods i).weight))
                (dpTable foods i j) := le_max_left _ _

theorem tracebackIdx_lt (foods : List FoodItem) :
    ∀ i step x, x ∈ tracebackIdx foods i step → x < i := by
  intro i
  induction i with
  | zero => intro step x hx; cases hx
  | succ i ih =>
    intro step x hx
    simp only [tracebackIdx] at hx
    by_cases h : dpTable foods (i + 1) step ≠ dpTable foods i step
    · rw [if_pos h] at hx
      rcases List.mem_cons.mp hx with rfl | hx'
      · exact Nat.lt_succ_self x
      · exact Nat.lt_succ_of_lt (ih _ x hx')
    · rw [if_neg h] at hx
      exact Nat.lt_succ_of_lt (ih _ x hx)

theorem tracebackIdx_cal (foods : List FoodItem) :
    ∀ i step,
      listCal ((tracebackIdx foods i step).map (nthFood foods)) =
        dpTable foods i step := by
  intro i
  induction i with
  | zero => intro step; rfl
  | succ i ih =>
    intro step
    simp only [tracebackIdx]
    by_cases h : dpTable foods (i + 1) step ≠ dpTable foods i step
    · rw [if_pos h]
      have hw : (nthFood foods i).weight ≤ step := by
        by_contra hw
        exact h (by simp only [dpTable]; rw [if_neg hw])
      have hmax : dpTable foods (i + 1) step =
          max ((nthFood foods i).calories +
            dpTable foods i (step - (nthFood foods i).weight))
            (dpTable foods i step) := by
        simp only [dpTable]
        rw [if_pos hw]
      have htake : dpTable foods (i + 1) step =
          (nthFood foods i).calories +
            dpTable foods i (step - (nthFood foods i).weight) := by
        rcases max_choice ((nthFood foods i).calories +
            dpTable foods i (step - (nthFood foods i).weight))
            (dpTable foods i step) with hc | hc
        · rw [hmax, hc]
        · exact absurd (hmax.trans hc) h
      rw [List.map_cons,
        show listCal (nthFood foods i ::
            (tracebackIdx foods i (step - (nthFood foods i).weight)).map
              (nthFood foods)) =
          (nthFood foods i).calories +
            listCal ((tracebackIdx foods i (step - (nthFood foods i).weight)).map
              (nthFood foods)) from by simp [listCal],
        ih, htake]
    · rw [if_neg h, ih]
      exact (not_ne_iff.mp h).symm

theorem tracebackIdx_weight (foods : List FoodItem) :
    ∀ i step,
      listWeight ((tracebackIdx foods i step).map (nthFood foods)) ≤ step := by
  intro i
  induction i with
  | zero => intro step; exact Nat.zero_le step
  | succ i ih =>
    intro step
    simp only [tracebackIdx]
    by_cases h : dpTable foods (i + 1) step ≠ dpTable foods i step
    · rw [if_pos h]
      have hw : (nthFood foods i).weight ≤ step := by
        by_contra hw
        exact h (by simp only [dpTable]; rw [if_neg hw])
      have hrest := ih (step - (nthFood foods i).weight)
      rw [List.map_cons,
        show listWeight (nthFood foods i ::
            (tracebackIdx foods i (step - (nthFood foods i).weight)).map
              (nthFood foods)) =
          (nthFood foods i).weight +
            listWeight ((tracebackIdx foods i (step - (nthFood foods i).weight)).map
              (nthFood foods)) from by simp [listWeight]]
      omega
    · rw [if_neg h]
      exact ih step

theorem tracebackIdx_chain (foods : List FoodItem) :
    ∀ i step, (tracebackIdx foods i step).Chain' (· > ·) := by
  intro i
  induction i with
  | zero => intro step; exact List.chain'_nil
  | succ i ih =>
    intro step
    simp only [tracebackIdx]
    by_cases h : dpTable foods (i + 1) step ≠ dpTable foods i step
    · rw [if_pos h]
      refine List.chain'_cons'.mpr ⟨?_, ih _⟩
      intro y hy
      exact tracebackIdx_lt foods i _ y (List.mem_of_mem_head? hy)
    · rw [if_neg h]
      exact ih step

theorem tracebackIdx_nodup (foods : List FoodItem) (i step : Nat) :
    (tracebackIdx foods i step).Nodup :=
  ((List.chain'_iff_pairwise.mp (tracebackIdx_chain foods i step)).imp
    (fun h => ne_of_gt h))

/-! The filter collects exactly the first `total_size` matching items, and
auxiliary facts used by the claim theorems. -/

theorem filterGo_spec (lo hi c : Int) :
    ∀ (src acc : List FoodItem), (acc.length : Int) ≤ c →
      filterGo lo hi c src acc =
        acc ++ (src.filter
          (fun f => lo ≤ f.calories ∧ f.calories ≤ hi)).take
            (c.toNat - acc.length) := by
  intro src
  induction src with
  | nil => intro acc _; simp [filterGo]
  | cons f fs ih =>
    intro acc hlen
    simp only [filterGo]
    by_cases hmatch : lo ≤ f.calories ∧ f.calories ≤ hi
    · rw [if_pos hmatch]
      by_cases hroom : (acc.length : Int) < c
      · rw [if_pos hroom]
        have hlen' : ((acc ++ [f]).length : Int) ≤ c := by
          simp only [List.length_append, List.length_cons, List.length_nil]
          push_cast
          omega
        rw [ih (acc ++ [f]) hlen']
        have hfc : List.filter
            (fun g => decide (lo ≤ g.calories ∧ g.calories ≤ hi)) (f :: fs) =
            f :: List.filter
              (fun g => decide (lo ≤ g.calories ∧ g.calories ≤ hi)) fs := by
          simp [List.filter_cons, hmatch]
        rw [hfc]
        have hsub : c.toNat - acc.length = (c.toNat - (acc.length + 1)) + 1 := by
          omega
        rw [hsub, List.take_succ_cons]
        simp [List.length_append]
      · rw [if_neg hroom]
        have hz : c.toNat - acc.length = 0 := by omega
        rw [hz, List.take_zero, List.append_nil]
    · rw [if_neg hmatch, ih acc hlen]
      have hfc : List.filter
          (fun g => decide (lo ≤ g.calories ∧ g.calories ≤ hi)) (f :: fs) =
          List.filter
            (fun g => decide (lo ≤ g.calories ∧ g.calories ≤ hi)) fs := by
        simp [List.filter_cons, hmatch]
      rw [hfc]

theorem nthFood_mem (foods : List FoodItem) {j : Nat} (hj : j < foods.length) :
    nthFood foods j ∈ foods := by
  unfold nthFood
  rw [List.getD_eq_getElem?_getD, List.getElem?_eq_getElem hj]
  exact List.getElem_mem hj

theorem mem_maskItems (foods : List FoodItem) {m : Nat} {f : FoodItem}
    (hf : f ∈ maskItems foods m) : f ∈ foods := by
  unfold maskItems maskItemsUpTo at hf
  obtain ⟨j, hj, hfj⟩ := List.mem_filterMap.mp hf
  by_cases hb : m.testBit j
  · rw [if_pos hb] at hfj
    obtain rfl := Option.some.inj hfj
    exact nthFood_mem foods (List.mem_range.mp hj)
  · rw [if_neg hb] at hfj
    cases hfj

theorem listCal_nonpos {l : List FoodItem} (h : ∀ f ∈ l, f.calories ≤ 0) :
    listCal l ≤ 0 := by
  induction l with
  | nil => exact le_refl 0
  | cons f fs ih =>
    have h1 := h f (List.mem_cons_self _ _)
    have h2 : listCal fs ≤ 0 := ih (fun g hg => h g (List.mem_cons_of_mem _ hg))
    simp only [listCal, List.map_cons, List.sum_cons]
    simp only [listCal] at h2
    omega

theorem bestValue_mono (foods : List FoodItem) {W₁ W₂ : Int} (h : W₁ ≤ W₂) :
    bestValue foods W₁ ≤ bestValue foods W₂ := by
  unfold bestValue
  refine listMax_le_listMax (fun x hx => ?_)
  obtain ⟨m, hm, rfl⟩ := List.mem_map.mp hx
  obtain ⟨hmr, hfe⟩ := List.mem_filter.mp hm
  exact List.mem_map_of_mem _ (List.mem_filter.mpr
    ⟨hmr, decide_eq_true (le_trans (of_decide_eq_true hfe) h)⟩)

theorem bestValue_natCast (foods : List FoodItem) (cap : Nat) :
    bestValue foods (cap : Int) = maxValueUpTo foods foods.length cap := by
  unfold bestValue maxValueUpTo
  congr 2
  exact List.filter_congr (fun m _ => decide_eq_decide.mpr Nat.cast_le)

theorem dynamic_max_calories_cal (foods : List FoodItem) (cap : Nat) :
    listCal (dynamic_max_calories foods cap) = dpTable foods foods.length cap :=
  tracebackIdx_cal foods foods.length cap

theorem exhaustive_neg_capacity (foods : List FoodItem) (W : Int)
    (h64 : foods.length < 64) (hW : W < 0) :
    exhaustive_max_calories foods W = some [] := by
  rw [exhaustive_eq_fold foods W h64]
  obtain ⟨_, _, h3⟩ := updFold_inv foods W (2 ^ foods.length)
  rcases h3 with ⟨hb, _⟩ | ⟨_, m, _, hfe, _⟩
  · rw [hb]
  · exfalso
    have h0 : (0 : Int) ≤ (maskWeight foods m : Int) := Int.natCast_nonneg _
    omega

/-! Claim theorems. -/

/-- Claim C1: for every catalog of fewer than 20 items (with weights and
capacity non-negative integers, as in this model), `exhaustive_max_calories`
and `dynamic_max_calories` on the same catalog and capacity return subsets of
equal total calories. -/
theorem claim_C1_agreement (foods : List FoodItem) (cap : Nat)
    (h : foods.length < 20) :
    ∃ S, exhaustive_max_calories foods (cap : Int) = some S ∧
      listCal S = listCal (dynamic_max_calories foods cap) := by
  obtain ⟨S, hS, hcal, _⟩ := exhaustive_spec foods (cap : Int)
    (lt_trans h (by decide))
  refine ⟨S, hS, ?_⟩
  rw [hcal, bestValue_natCast, dynamic_max_calories_cal,
    dpTable_eq_maxValueUpTo foods foods.length le_rfl]

/-- Claim C1 witness: agreement on a concrete two-item catalog. -/
theorem claim_C1_agreement_witness :
    ∃ S, exhaustive_max_calories [⟨"a", 1, 2⟩, ⟨"b", 2, 3⟩] ((2 : Nat) : Int) =
        some S ∧
      listCal S = listCal (dynamic_max_calories [⟨"a", 1, 2⟩, ⟨"b", 2, 3⟩] 2) :=
  claim_C1_agreement [⟨"a", 1, 2⟩, ⟨"b", 2, 3⟩] 2 (by decide)

/-- Claim C2: on the spec's tie-break example (two disjoint single-item
subsets of equal value, both fitting the capacity) the exhaustive search
returns the item of the numerically smaller inclusion mask; but the claim's
overall size bound is not honoured by the code: already at `N = 31` the mask
count `pow(2, N)` exceeds the C++ `int` variable that receives it, while the
assert only rejects `N ≥ 64`, so the enumeration is broken for
`31 ≤ N < 64`. -/
theorem claim_C2_exhaustive :
    exhaustive_max_calories [⟨"a", 5, 10⟩, ⟨"b", 5, 10⟩] 5 =
      some [⟨"a", 5, 10⟩] ∧
    (31 < 64 ∧ ¬ bitSizeFitsCppInt 31) :=
  ⟨by decide, by decide, by decide⟩

/-- Claim C3: the subset returned by `dynamic_max_calories` has total
calories equal to the DP-table entry `T[N][W]`, which is the maximum value
achievable by the first `N` items within capacity `W`; on the spec's example
catalog with capacity 5 the solver returns the weight-3 and weight-2 items,
with value 7 and weight 5. -/
theorem claim_C3_dp_optimal :
    (∀ (foods : List FoodItem) (cap : Nat),
      listCal (dynamic_max_calories foods cap) =
          dpTable foods foods.length cap ∧
        dpTable foods foods.length cap =
          maxValueUpTo foods foods.length cap) ∧
    dynamic_max_calories
        [⟨"a", 2, 3⟩, ⟨"b", 3, 4⟩, ⟨"c", 4, 5⟩, ⟨"d", 5, 6⟩] 5 =
      [⟨"b", 3, 4⟩, ⟨"a", 2, 3⟩] ∧
    listCal (dynamic_max_calories
        [⟨"a", 2, 3⟩, ⟨"b", 3, 4⟩, ⟨"c", 4, 5⟩, ⟨"d", 5, 6⟩] 5) = 7 ∧
    listWeight (dynamic_max_calories
        [⟨"a", 2, 3⟩, ⟨"b", 3, 4⟩, ⟨"c", 4, 5⟩, ⟨"d", 5, 6⟩] 5) = 5 :=
  ⟨fun foods cap => ⟨dynamic_max_calories_cal foods cap,
    dpTable_eq_maxValueUpTo foods foods.length le_rfl cap⟩,
   by decide, by decide, by decide⟩

/-- Claim C4: the exhaustive solver's guard accepts every `N < 64`, but the
mask count `pow(2, N)` is stored in a 32-bit C++ `int`, which can represent
`2^30` but not `2^31`; hence for `31 ≤ N < 64` the guard passes while the
mask-counting integer silently overflows, contradicting the claim that the
indexing integer has width at least `N` bits for all `N < 64`. -/
theorem claim_C4_overflow :
    bitSizeFitsCppInt 30 ∧ 31 < 64 ∧ ¬ bitSizeFitsCppInt 31 :=
  ⟨by decide, by decide, by decide⟩

/-- Claim C5 counterexample: with the negative capacity −1 the exhaustive
solver returns the empty subset, whose `sum_food_vector` weight 0 exceeds
the capacity. -/
theorem claim_C5_counterexample :
    exhaustive_max_calories [⟨"a", 1, 1⟩] (-1) = some [] ∧
    ¬ ((sum_food_vector ([] : List FoodItem)).1 : Int) ≤ -1 :=
  ⟨by decide, by decide⟩

/-- Claim C5 (amended): for every non-negative capacity, the total weight of
any subset returned by either solver, as computed by `sum_food_vector`, is
at most the capacity passed to the solver. -/
theorem claim_C5_weight_feasible (foods : List FoodItem) (W : Int) (cap : Nat)
    (h64 : foods.length < 64) (hW : 0 ≤ W) :
    (∀ S, exhaustive_max_calories foods W = some S →
      ((sum_food_vector S).1 : Int) ≤ W) ∧
    (sum_food_vector (dynamic_max_calories foods cap)).1 ≤ cap := by
  constructor
  · intro S hS
    obtain ⟨S', hS', hcal, hdis⟩ := exhaustive_spec foods W h64
    rw [hS] at hS'
    obtain rfl := Option.some.inj hS'
    rw [sum_food_vector_eq]
    rcases hdis with ⟨hSe, _⟩ | ⟨_, m, _, hfe, _, hSm, _⟩
    · rw [hSe]; simpa using hW
    · rw [hSm]; exact hfe
  · rw [sum_food_vector_eq]
    exact tracebackIdx_weight foods foods.length cap

/-- Claim C5 witness: weight feasibility on a concrete instance. -/
theorem claim_C5_weight_feasible_witness :
    (∀ S, exhaustive_max_calories [⟨"a", 2, 3⟩] 5 = some S →
      ((sum_food_vector S).1 : Int) ≤ 5) ∧
    (sum_food_vector (dynamic_max_calories [⟨"a", 2, 3⟩] 4)).1 ≤ 4 :=
  claim_C5_weight_feasible [⟨"a", 2, 3⟩] 5 4 (by decide) (by decide)

/-- Claim C6: for every positive `total_size`, the filter returns exactly
the first `total_size` source items whose calories lie in the inclusive
range `[min_calories, max_calories]`, in source order. -/
theorem claim_C6_filter (source : List FoodItem) (lo hi c : Int)
    (hc : 0 < c) :
    filter_food_vector source lo hi c =
      some ((source.filter
        (fun f => lo ≤ f.calories ∧ f.calories ≤ hi)).take c.toNat) := by
  unfold filter_food_vector
  rw [if_neg (not_le.mpr hc),
    filterGo_spec lo hi c source [] (by simpa using le_of_lt hc)]
  simp

/-- Claim C6 witness: the spec's filter-cutoff example, values
`[5, 50, 10, 200, 15]`, range `[10, 100]`, cutoff 2. -/
theorem claim_C6_filter_witness :
    (0 : Int) < 2 ∧ filter_food_vector
        [⟨"a", 1, 5⟩, ⟨"b", 1, 50⟩, ⟨"c", 1, 10⟩, ⟨"d", 1, 200⟩, ⟨"e", 1, 15⟩]
        10 100 2 =
      some [⟨"b", 1, 50⟩, ⟨"c", 1, 10⟩] := by
  refine ⟨by decide, ?_⟩
  rw [claim_C6_filter _ _ _ _ (by decide)]
  decide

/-- Claim C7 counterexample: `exhaustive_max_calories` does not reject a
negative capacity with a failure — it returns a normal (empty) result. -/
theorem claim_C7_counterexample :
    exhaustive_max_calories [⟨"a", 1, 1⟩] (-1) ≠ none := by decide

/-- Claim C7 (amended): `filter_food_vector` rejects `total_size ≤ 0`
synchronously at the start of the call (null result, no partial output) and
succeeds otherwise; the solvers perform no negative-capacity validation —
the exhaustive search simply returns the empty subset on a negative
capacity. -/
theorem claim_C7_validation (source : List FoodItem) (lo hi c : Int)
    (foods : List FoodItem) (W : Int) (h64 : foods.length < 64) (hW : W < 0) :
    (filter_food_vector source lo hi c = none ↔ c ≤ 0) ∧
    exhaustive_max_calories foods W = some [] := by
  constructor
  · unfold filter_food_vector
    by_cases hc : c ≤ 0
    · simp [hc]
    · simp [hc]
  · exact exhaustive_neg_capacity foods W h64 hW

/-- Claim C7 witness: validation behaviour on concrete arguments. -/
theorem claim_C7_validation_witness :
    ((filter_food_vector [] 0 0 0 = none ↔ (0 : Int) ≤ 0) ∧
      exhaustive_max_calories [⟨"a", 1, 1⟩] (-2) = some []) :=
  claim_C7_validation [] 0 0 0 [⟨"a", 1, 1⟩] (-2) (by decide) (by decide)

/-- Claim C8: for a fixed catalog, increasing the capacity never decreases
the total calories of the subset returned, for both solvers. -/
theorem claim_C8_monotone (foods : List FoodItem) (W₁ W₂ : Int) (c₁ c₂ : Nat)
    (h64 : foods.length < 64) (hW : W₁ ≤ W₂) (hc : c₁ ≤ c₂) :
    (∃ S₁ S₂, exhaustive_max_calories foods W₁ = some S₁ ∧
      exhaustive_max_calories foods W₂ = some S₂ ∧
      listCal S₁ ≤ listCal S₂) ∧
    listCal (dynamic_max_calories foods c₁) ≤
      listCal (dynamic_max_calories foods c₂) := by
  constructor
  · obtain ⟨S₁, h₁, hcal₁, _⟩ := exhaustive_spec foods W₁ h64
    obtain ⟨S₂, h₂, hcal₂, _⟩ := exhaustive_spec foods W₂ h64
    exact ⟨S₁, S₂, h₁, h₂, by rw [hcal₁, hcal₂]; exact bestValue_mono foods hW⟩
  · rw [dynamic_max_calories_cal foods c₁, dynamic_max_calories_cal foods c₂,
      dpTable_eq_maxValueUpTo foods foods.length le_rfl c₁,
      dpTable_eq_maxValueUpTo foods foods.length le_rfl c₂]
    exact maxValueUpTo_mono_j foods foods.length hc

/-- Claim C8 witness: capacity monotonicity on a concrete catalog. -/
theorem claim_C8_monotone_witness :
    ((∃ S₁ S₂, exhaustive_max_calories [⟨"a", 1, 2⟩, ⟨"b", 2, 3⟩] 1 = some S₁ ∧
      exhaustive_max_calories [⟨"a", 1, 2⟩, ⟨"b", 2, 3⟩] 3 = some S₂ ∧
      listCal S₁ ≤ listCal S₂) ∧
    listCal (dynamic_max_calories [⟨"a", 1, 2⟩, ⟨"b", 2, 3⟩] 1) ≤
      listCal (dynamic_max_calories [⟨"a", 1, 2⟩, ⟨"b", 2, 3⟩] 3)) :=
  claim_C8_monotone [⟨"a", 1, 2⟩, ⟨"b", 2, 3⟩] 1 3 1 3
    (by decide) (by decide) (by decide)

/-- Claim C9: when every item's calories are non-positive, the exhaustive
solver returns the empty subset: a candidate replaces the best only on a
strict calorie improvement over the initial empty best of value 0. -/
theorem claim_C9_nonpositive (foods : List FoodItem) (W : Int)
    (h64 : foods.length < 64) (hneg : ∀ f ∈ foods, f.calories ≤ 0) :
    exhaustive_max_calories foods W = some [] := by
  rw [exhaustive_eq_fold foods W h64]
  obtain ⟨_, _, h3⟩ := updFold_inv foods W (2 ^ foods.length)
  rcases h3 with ⟨hb, _⟩ | ⟨hpos, m, _, _, hceq, _⟩
  · rw [hb]
  · exfalso
    have h0 : maskCal foods m ≤ 0 :=
      listCal_nonpos (fun f hf => hneg f (mem_maskItems foods hf))
    omega

/-- Claim C9 witness: a catalog with only non-positive calorie values. -/
theorem claim_C9_nonpositive_witness :
    exhaustive_max_calories [⟨"a", 1, -5⟩, ⟨"b", 2, 0⟩] 10 = some [] :=
  claim_C9_nonpositive [⟨"a", 1, -5⟩, ⟨"b", 2, 0⟩] 10 (by decide) (by decide)

/-- Claim C10: the DP traceback lists the chosen items in strictly
decreasing catalog-index order, so each catalog position appears at most
once in the returned subset. -/
theorem claim_C10_traceback_order (foods : List FoodItem) (cap : Nat) :
    dynamic_max_calories foods cap =
      (tracebackIdx foods foods.length cap).map (nthFood foods) ∧
    (tracebackIdx foods foods.length cap).Chain' (· > ·) ∧
    (tracebackIdx foods foods.length cap).Nodup :=
  ⟨rfl, tracebackIdx_chain foods foods.length cap,
    tracebackIdx_nodup foods foods.length cap⟩
